import Mathlib

/-!
Shallow embedding of the loki-client-go push client
(`loki/client.go`, `batch.go`, `pkg/logproto/logproto.go`) and proofs of the
spec claims about it.

Go's `time.Duration` and timestamps are modelled as nanosecond counts (`Nat`);
Go `len` on a string is its UTF-8 byte size (`String.utf8ByteSize`); Go maps
are modelled as association lists with unique keys where construction
guarantees it; Go map objects, which are reference values, are modelled by a
`Store` of label sets indexed by `Nat` references where aliasing matters.
-/

namespace Loki

/-- Go map read `m[k]` with the `ok` flag folded into `Option`: the first
binding of the key in an association list (keys are unique in a Go map, so at
most one binding exists in any list built by this development). -/
def alookup {κ β : Type} [DecidableEq κ] (k : κ) : List (κ × β) → Option β
  | [] => none
  | p :: rest => if p.1 = k then some p.2 else alookup k rest

/-- `ReservedLabelTenantID`: label reserved to override the tenant ID. -/
def ReservedLabelTenantID : String := "__tenant_id__"

/-- `JSONContentType` constant from `client.go`. -/
def JSONContentType : String := "application/json"

/-- `Version` constant from `client.go`. -/
def Version : String := "0.0.1"

/-- `UserAgent = fmt.Sprintf("LokiGoClient/%s", Version)`. -/
def UserAgent : String := "LokiGoClient/" ++ Version

/-- `model.LabelSet`: a Go map from label name to label value, modelled as an
association list (callers construct it without duplicate keys). -/
abbrev LabelSet := List (String × String)

namespace LabelSet

/-- Go map read `ls[k]` with its `ok` flag folded into `Option`. -/
def lookupKey (ls : LabelSet) (k : String) : Option String :=
  alookup k ls

/-- Go `delete(ls, k)`: remove every binding of key `k`. -/
def eraseKey (ls : LabelSet) (k : String) : LabelSet :=
  ls.filter (fun p => p.1 ≠ k)

/-- Go map write `ls[k] = v`: overwrite the binding if the key is present,
otherwise add it. -/
def setKey (ls : LabelSet) (k v : String) : LabelSet :=
  if (alookup k ls).isSome then
    ls.map (fun p => if p.1 = k then (k, v) else p)
  else
    ls ++ [(k, v)]

/-- `model.LabelSet.Merge` (prometheus/common): start from a copy of the
receiver, then write every binding of `other` on top, so `other` wins on
conflicts. -/
def merge (ls other : LabelSet) : LabelSet :=
  other.foldl (fun acc p => setKey acc p.1 p.2) ls

end LabelSet

/-- Insert a pair into a list of pairs sorted by key (for `serializeLabels`). -/
def insertByKey (p : String × String) : List (String × String) → List (String × String)
  | [] => [p]
  | q :: rest => if p.1 ≤ q.1 then p :: q :: rest else q :: insertByKey p rest

/-- Sort a list of pairs by key (insertion sort). -/
def sortByKey : List (String × String) → List (String × String)
  | [] => []
  | p :: rest => insertByKey p (sortByKey rest)

/-- `model.LabelSet.String()` (prometheus/common), used by `batch.add` as the
map key for streams: it sorts the label names and prints the sorted bindings.
The printed form is injective in the sorted binding list, so that list itself
is used as the serialized form. -/
def serializeLabels (ls : LabelSet) : List (String × String) :=
  sortByKey ls

/-- `logproto.Value`, a Go `[2]string`: a fixed two-element string array
holding the decimal nanosecond timestamp and the line text. -/
def Value : Type := { l : List String // l.length = 2 }

instance : DecidableEq Value := fun a b =>
  decidable_of_iff (a.val = b.val) Subtype.ext_iff.symm

/-- Construct a `Value` from its two components. -/
def Value.mk2 (ts line : String) : Value := ⟨[ts, line], rfl⟩

/-- Go `len(value)` for `value : [2]string`: the array length. -/
def Value.goLen (v : Value) : Nat := v.val.length

/-- `value[1]`, the line text (index in range by the type invariant). -/
def Value.line (v : Value) : String := v.val.getD 1 ""

/-- `value[0]`, the decimal timestamp string. -/
def Value.ts (v : Value) : String := v.val.getD 0 ""

/-- `entry` from `client.go`. -/
structure Entry where
  tenantID : String
  labels : LabelSet
  value : Value
deriving DecidableEq

/-- `logproto.Stream`. -/
structure Stream where
  labels : LabelSet
  values : List Value
deriving DecidableEq

/-- `logproto.PushRequest`. -/
structure PushRequest where
  streams : List Stream
deriving DecidableEq

/-- `batch` from `batch.go`: streams are a Go map keyed by
`entry.labels.String()`, modelled as an association list keyed by
`serializeLabels`; `bytes` the accumulated size; `createdAt` in ns. -/
structure Batch where
  streams : List (List (String × String) × Stream)
  bytes : Nat
  createdAt : Nat
deriving DecidableEq

/-- The empty batch allocated at the top of `newBatch` (before the entries
loop). -/
def emptyBatch (now : Nat) : Batch := ⟨[], 0, now⟩

/-- `batch.add`: account the line length (`len(entry.Line)` is the UTF-8 byte
count), then append the value to the stream with the entry's serialized label
set, or create that stream. -/
def Batch.add (b : Batch) (e : Entry) : Batch :=
  let newBytes := b.bytes + e.value.line.utf8ByteSize
  let key := serializeLabels e.labels
  match alookup key b.streams with
  | some _ =>
      { b with bytes := newBytes,
               streams := b.streams.map (fun p =>
                 if p.1 = key then (p.1, ⟨p.2.labels, p.2.values ++ [e.value]⟩) else p) }
  | none =>
      { b with bytes := newBytes,
               streams := b.streams ++ [(key, ⟨e.labels, [e.value]⟩)] }

/-- `newBatch(entries ...entry)`: empty batch stamped with the current time,
then `add` each entry. -/
def newBatch (now : Nat) (entries : List Entry) : Batch :=
  entries.foldl Batch.add (emptyBatch now)

/-- `batch.sizeBytes`. -/
def Batch.sizeBytes (b : Batch) : Nat := b.bytes

/-- `batch.sizeBytesAfter`: `b.bytes + len(entry.value)` — note `entry.value`
is the `[2]string` array, so Go `len` is its array length. -/
def Batch.sizeBytesAfter (b : Batch) (e : Entry) : Nat :=
  b.bytes + e.value.goLen

/-- `batch.age`: `time.Since(b.createdAt)` at instant `now`. -/
def Batch.age (b : Batch) (now : Nat) : Nat := now - b.createdAt

/-- `batch.createPushRequest`: collect the streams and count all values. -/
def Batch.createPushRequest (b : Batch) : PushRequest × Nat :=
  let streams := b.streams.map (fun p => p.2)
  (⟨streams⟩, streams.foldl (fun acc s => acc + s.values.length) 0)

/-- `batch.encodeJSON`: `json.Marshal` of the push request cannot fail for
these types and is modelled structurally — the payload parses back to the
`PushRequest` it was built from, so the encoded payload is represented by the
request itself, paired with the entry count. -/
def Batch.encodeJSON (b : Batch) : PushRequest × Nat :=
  b.createPushRequest

/-- The fields of `Config` the dispatcher, sender and `Handle` read.
Durations are in nanoseconds. -/
structure Config where
  batchWait : Nat
  batchSize : Nat
  tenantID : String
  externalLabels : LabelSet
  maxRetries : Nat

/-- `minWaitCheckFrequency = 10 * time.Millisecond` in nanoseconds. -/
def minWaitCheckFrequency : Nat := 10000000

/-- The ticker period computed at the top of `Client.run`:
`BatchWait / 10`, floored at `minWaitCheckFrequency`. -/
def maxWaitCheckFrequency (batchWait : Nat) : Nat :=
  let f := batchWait / 10
  if f < minWaitCheckFrequency then minWaitCheckFrequency else f

/-- State of the dispatcher loop: the pending batches map (association list
keyed by tenant ID, unique keys as for a Go map) plus, for specification
purposes, the list of `sendBatch` calls made so far in order. -/
structure LoopState where
  batches : List (String × Batch)
  sent : List (String × Batch)
deriving DecidableEq

/-- Go map write `batches[tid] = b`: replace the binding of the first
occurrence of the key (keys are unique in a Go map), or add it. -/
def setBatch : List (String × Batch) → String → Batch → List (String × Batch)
  | [], k, v => [(k, v)]
  | p :: rest, k, v => if p.1 = k then (k, v) :: rest else p :: setBatch rest k v

/-- The `case e := <-c.entries` arm of `Client.run`: create a batch for a new
tenant; flush and restart when the projected size overflows `BatchSize`;
otherwise `add` to the pending batch. -/
def dispatchEntry (cfg : Config) (st : LoopState) (now : Nat) (e : Entry) : LoopState :=
  match alookup e.tenantID st.batches with
  | none =>
      { st with batches := setBatch st.batches e.tenantID (newBatch now [e]) }
  | some b =>
      if b.sizeBytesAfter e > cfg.batchSize then
        { batches := setBatch st.batches e.tenantID (newBatch now [e]),
          sent := st.sent ++ [(e.tenantID, b)] }
      else
        { st with batches := setBatch st.batches e.tenantID (b.add e) }

/-- The `case <-maxWaitCheck.C` arm of `Client.run`: send and delete every
batch whose age has reached `BatchWait`; keep the others. -/
def tickFlush (batchWait now : Nat) (st : LoopState) : LoopState :=
  { batches := st.batches.filter (fun p => decide (p.2.age now < batchWait)),
    sent := st.sent ++ st.batches.filter (fun p => ! decide (p.2.age now < batchWait)) }

/-- The events the dispatcher loop selects over, stamped with the instant at
which they are handled. -/
inductive Event where
  | entry (now : Nat) (e : Entry)
  | tick (now : Nat)
  | quit
deriving DecidableEq

/-- One iteration of the `select` in `Client.run` for a non-quit event. -/
def step (cfg : Config) (st : LoopState) : Event → LoopState
  | .entry now e => dispatchEntry cfg st now e
  | .tick now => tickFlush cfg.batchWait now st
  | .quit => st

/-- The deferred drain in `Client.run`: send every pending batch. -/
def drain (st : LoopState) : LoopState :=
  { batches := [], sent := st.sent ++ st.batches }

/-- `Client.run` over a finite event schedule: handle events until the quit
channel fires, then run the deferred drain. -/
def runLoop (cfg : Config) (st : LoopState) : List Event → LoopState
  | [] => st
  | ev :: rest =>
    match ev with
    | .quit => drain st
    | _ => runLoop cfg (step cfg st ev) rest

/-- The `quit` channel plus `sync.Once` of a `Client`, for `Client.Stop`. -/
structure StopState where
  onceDone : Bool
  quitClosed : Bool
deriving DecidableEq

/-- `Client.Stop`: `once.Do(close(quit))` — the `sync.Once` makes the close
happen at most once, so repeated calls are safe. (`wg.Wait` is the join with
the loop's drain, represented by `runLoop` running `drain` before returning.) -/
def clientStop (s : StopState) : StopState :=
  if s.onceDone then s else { onceDone := true, quitClosed := true }

/-- The headers set by `Client.send`: content type, user agent, and
`X-Scope-OrgID` only when the tenant ID is non-empty. -/
def sendHeaders (tenantID : String) : List (String × String) :=
  let base := [("Content-Type", JSONContentType), ("User-Agent", UserAgent)]
  if tenantID ≠ "" then base ++ [("X-Scope-OrgID", tenantID)] else base

/-- The status classification done by `Client.send`: `-1` stands for a
connection-level failure (`http.NewRequest` or `client.Do` returned an error
and `send` returns `-1, err`); otherwise the HTTP status code is returned and
`err` is non-nil exactly when the code is not 2xx. This predicate is whether
the `(status, err)` pair returned by `send` carries a non-nil `err`.
Go integer division truncates toward zero (`Int.tdiv`). -/
def sendErr (status : Int) : Bool :=
  status < 0 || Int.tdiv status 100 != 2

/-- The `break` condition of the retry loop in `Client.sendBatch`:
`status > 0 && status != 429 && status/100 != 5`. -/
def sendBreak (status : Int) : Bool :=
  status > 0 && status != 429 && Int.tdiv status 100 != 5

/-- Modelled from the spec: the backoff policy (`pkg/backoff`, not under
`src/`) "given min/max delay and max retries, produces successive wait
durations; reports whether retries remain" — `Ongoing()` is true while the
number of completed waits is below the configured maximum number of
retries. -/
def backoffOngoing (maxRetries numRetries : Nat) : Bool :=
  numRetries < maxRetries

/-- The retry loop body of `Client.sendBatch`, with the outcome of the `i`-th
`send` call given by `statuses i`. State: attempts made so far, last
`status`, last `err` (Go zero values `0` and nil before the first attempt).
`fuel` is the remaining retry budget, so `backoffOngoing` holds exactly when
`fuel` is positive. Returns `(attempts, status, err)` when the loop exits. -/
def sendBatchLoop (statuses : Nat → Int) :
    Nat → Nat → Int → Bool → Nat × Int × Bool
  | 0, attempts, status, err => (attempts, status, err)
  | fuel + 1, attempts, _, _ =>
    let s := statuses attempts
    let e := sendErr s
    if sendBreak s then (attempts + 1, s, e)
    else sendBatchLoop statuses fuel (attempts + 1) s e

/-- `Client.sendBatch` after a successful encode: run the retry loop from the
fresh backoff state. Returns `(attempts, final status, final err)`. -/
def sendBatch (maxRetries : Nat) (statuses : Nat → Int) : Nat × Int × Bool :=
  sendBatchLoop statuses maxRetries 0 0 false

/-- `Client.getTenantID`: the reserved label wins if present, else the
configured tenant ID if non-empty, else the empty string. -/
def getTenantID (cfg : Config) (labels : LabelSet) : String :=
  match alookup ReservedLabelTenantID labels with
  | some v => v
  | none => if cfg.tenantID ≠ "" then cfg.tenantID else ""

/-- A heap of Go map objects: `model.LabelSet` is a reference value, so
aliasing-sensitive code is modelled store-passing style, references being
indices into the store. -/
abbrev Store := List LabelSet

/-- Dereference (a valid reference always indexes into the store). -/
def Store.getRef (st : Store) (r : Nat) : LabelSet := st.getD r []

/-- Allocate a fresh map object holding `ls`; returns the new store and the
fresh reference. -/
def Store.alloc (st : Store) (ls : LabelSet) : Store × Nat :=
  (st ++ [ls], st.length)

/-- Mutate the object behind a reference in place. -/
def Store.setRef (st : Store) (r : Nat) (ls : LabelSet) : Store :=
  st.set r ls

/-- `Client.Handle` up to the channel send, store-passing: merge external
labels (`Merge` allocates a new map), read the tenant ID, and if the reserved
label is present clone the map (fresh allocation) and delete the key on the
clone. Returns the store after the call and the entry sent on `c.entries`.
`ts` is `t.UnixNano()` and the value is
`logproto.Value{fmt.Sprintf("%d", t.UnixNano()), s}`. -/
def handleStored (cfg : Config) (ts : Int) (s : String) (st0 : Store) (r0 : Nat) :
    Store × Entry :=
  let p1 :=
    if 0 < cfg.externalLabels.length then
      Store.alloc st0 (LabelSet.merge cfg.externalLabels (Store.getRef st0 r0))
    else (st0, r0)
  let st1 := p1.1
  let r1 := p1.2
  let tenantID := getTenantID cfg (Store.getRef st1 r1)
  let p2 :=
    if (alookup ReservedLabelTenantID (Store.getRef st1 r1)).isSome then
      let pc := Store.alloc st1 (Store.getRef st1 r1)
      (Store.setRef pc.1 pc.2
        (LabelSet.eraseKey (Store.getRef pc.1 pc.2) ReservedLabelTenantID), pc.2)
    else (st1, r1)
  let st2 := p2.1
  let r2 := p2.2
  (st2, ⟨tenantID, Store.getRef st2 r2, Value.mk2 (toString ts) s⟩)

/-- The entry `Client.Handle` sends to the dispatcher for a caller-provided
label set, read off from the store-passing embedding on a one-object store. -/
def handleEntry (cfg : Config) (ts : Int) (ls : LabelSet) (s : String) : Entry :=
  (handleStored cfg ts s [ls] 0).2

/-! ### Specification-side definitions (used only in theorem statements) -/

/-- The label set `Handle` works on after the external-label merge: external
labels are merged in only when configured, with the caller-provided bindings
layered on top. -/
def mergedLabels (cfg : Config) (ls : LabelSet) : LabelSet :=
  if 0 < cfg.externalLabels.length then LabelSet.merge cfg.externalLabels ls else ls

/-- Sum of the line-text byte lengths of a list of entries. -/
def sumLineBytes (l : List Entry) : Nat :=
  (l.map (fun e => e.value.line.utf8ByteSize)).sum

/-- The stream a batch built from the entry sequence `l` must hold under a
given serialized label set: none if no entry of `l` has it; otherwise the
labels of the first such entry together with the values of all such entries in
arrival order. -/
def expectedStream (l : List Entry) (key : List (String × String)) : Option Stream :=
  match l.filter (fun e => serializeLabels e.labels = key) with
  | [] => none
  | e :: es => some ⟨e.labels, (e :: es).map Entry.value⟩

/-- The (serialized label set, value) pairs of an entry sequence, in order. -/
def entryPairs (l : List Entry) : List (List (String × String) × Value) :=
  l.map (fun e => (serializeLabels e.labels, e.value))

/-- The (serialized label set, value) pairs held by one stream. -/
def streamPairs (s : Stream) : List (List (String × String) × Value) :=
  s.values.map (fun v => (serializeLabels s.labels, v))

/-- The (serialized label set, value) pairs carried by an encoded payload. -/
def requestPairs (req : PushRequest) : List (List (String × String) × Value) :=
  (req.streams.map streamPairs).flatten

/-- All values held by a batch. -/
def Batch.valuesList (b : Batch) : List Value :=
  (b.streams.map (fun p => p.2.values)).flatten

/-- All values buffered in pending batches of a loop state. -/
def pendingValues (st : LoopState) : List Value :=
  (st.batches.map (fun p => p.2.valuesList)).flatten

/-- All values handed to `sendBatch` so far. -/
def sentValues (st : LoopState) : List Value :=
  (st.sent.map (fun p => p.2.valuesList)).flatten

/-- All values accepted into the dispatcher so far: already attempted or still
pending. -/
def allValues (st : LoopState) : List Value :=
  sentValues st ++ pendingValues st

/-! ### Concrete sample inputs for witnesses -/

/-- A sample label set. -/
def exLabels : LabelSet := [("app", "web")]

/-- A sample entry for tenant `"t"` with a 5-byte line. -/
def exEntry : Entry := ⟨"t", exLabels, Value.mk2 "0" "hello"⟩

/-- A second sample entry with the same labels. -/
def exEntry2 : Entry := ⟨"t", exLabels, Value.mk2 "1" "bye"⟩

/-- A sample batch holding `exEntry` (5 accumulated bytes). -/
def exBatch : Batch := newBatch 0 [exEntry]

/-- A sample configuration whose batch size the sample batch overflows. -/
def exCfg : Config := ⟨1000000000, 4, "", [], 5⟩

/-- A sample loop state with one pending batch for tenant `"t"`. -/
def exState : LoopState := ⟨[("t", exBatch)], []⟩

/-! ### Helper lemmas about association lists and the batch map -/

theorem Value.goLen_eq_two (v : Value) : v.goLen = 2 := v.property

theorem alookup_some_split {κ β : Type} [DecidableEq κ] {l : List (κ × β)} {k : κ} {b : β}
    (h : alookup k l = some b) :
    ∃ l1 l2, l = l1 ++ (k, b) :: l2 ∧ ∀ q ∈ l1, q.1 ≠ k := by
  induction l with
  | nil => simp [alookup] at h
  | cons p rest ih =>
    by_cases hk : p.1 = k
    · simp only [alookup, if_pos hk] at h
      refine ⟨[], rest, ?_, by simp⟩
      obtain ⟨p1, p2⟩ := p
      obtain rfl : p2 = b := Option.some.inj h
      simp at hk
      simp [hk]
    · simp only [alookup, if_neg hk] at h
      obtain ⟨l1, l2, hl, hall⟩ := ih h
      refine ⟨p :: l1, l2, by simp [hl], ?_⟩
      intro q hq
      rcases List.mem_cons.mp hq with h1 | h2
      · exact h1 ▸ hk
      · exact hall q h2

theorem alookup_none_forall {κ β : Type} [DecidableEq κ] {l : List (κ × β)} {k : κ}
    (h : alookup k l = none) : ∀ q ∈ l, q.1 ≠ k := by
  induction l with
  | nil => simp
  | cons p rest ih =>
    by_cases hk : p.1 = k
    · simp [alookup, if_pos hk] at h
    · simp only [alookup, if_neg hk] at h
      intro q hq
      rcases List.mem_cons.mp hq with h1 | h2
      · exact h1 ▸ hk
      · exact ih h q h2

theorem alookup_append_of_none {κ β : Type} [DecidableEq κ] {l1 : List (κ × β)} {k : κ}
    (l2 : List (κ × β)) (h : alookup k l1 = none) :
    alookup k (l1 ++ l2) = alookup k l2 := by
  induction l1 with
  | nil => simp
  | cons p rest ih =>
    by_cases hk : p.1 = k
    · simp [alookup, if_pos hk] at h
    · simp only [alookup, if_neg hk] at h
      simpa [alookup, if_neg hk] using ih h

theorem alookup_append_singleton_ne {κ β : Type} [DecidableEq κ] {k k0 : κ}
    (l : List (κ × β)) (v : β) (h : k ≠ k0) :
    alookup k (l ++ [(k0, v)]) = alookup k l := by
  induction l with
  | nil => simp [alookup, Ne.symm h]
  | cons p rest ih =>
    by_cases hk : p.1 = k
    · simp [alookup, if_pos hk]
    · simpa [alookup, if_neg hk] using ih

theorem alookup_map_update_self {κ β : Type} [DecidableEq κ]
    (l : List (κ × β)) (k : κ) (f : β → β) :
    alookup k (l.map (fun p => if p.1 = k then (p.1, f p.2) else p)) =
      (alookup k l).map f := by
  induction l with
  | nil => simp [alookup]
  | cons p rest ih =>
    by_cases hk : p.1 = k
    · simp [alookup, if_pos hk]
    · simpa [alookup, if_neg hk] using ih

theorem alookup_map_update_ne {κ β : Type} [DecidableEq κ]
    (l : List (κ × β)) (k0 k : κ) (f : β → β) (h : k ≠ k0) :
    alookup k (l.map (fun p => if p.1 = k0 then (p.1, f p.2) else p)) =
      alookup k l := by
  induction l with
  | nil => simp [alookup]
  | cons p rest ih =>
    by_cases hk0 : p.1 = k0
    · have hk : ¬ p.1 = k := fun hh => h (hh ▸ hk0 ▸ rfl)
      have hk0k : ¬ k0 = k := Ne.symm h
      simpa [alookup, if_pos hk0, if_neg hk, hk0, if_neg hk0k] using ih
    · by_cases hk : p.1 = k
      · simp [alookup, if_neg hk0, if_pos hk]
      · simpa [alookup, if_neg hk0, if_neg hk] using ih

theorem map_update_keys {κ β : Type} [DecidableEq κ] (l : List (κ × β)) (k : κ) (f : β → β) :
    (l.map (fun p => if p.1 = k then (p.1, f p.2) else p)).map Prod.fst =
      l.map Prod.fst := by
  induction l with
  | nil => simp
  | cons p rest ih =>
    by_cases hk : p.1 = k
    · simpa [if_pos hk] using ih
    · simpa [if_neg hk] using ih

theorem alookup_setBatch_self (l : List (String × Batch)) (k : String) (v : Batch) :
    alookup k (setBatch l k v) = some v := by
  induction l with
  | nil => simp [setBatch, alookup]
  | cons p rest ih =>
    by_cases hk : p.1 = k
    · simp [setBatch, if_pos hk, alookup]
    · simpa [setBatch, if_neg hk, alookup, if_neg hk] using ih

theorem setBatch_of_split {l1 l2 : List (String × Batch)} {k : String}
    (hall : ∀ q ∈ l1, q.1 ≠ k) (b v : Batch) :
    setBatch (l1 ++ (k, b) :: l2) k v = l1 ++ (k, v) :: l2 := by
  induction l1 with
  | nil => simp [setBatch]
  | cons p rest ih =>
    have hp : p.1 ≠ k := hall p (List.mem_cons_self p rest)
    have hrest : ∀ q ∈ rest, q.1 ≠ k := fun q hq => hall q (List.mem_cons_of_mem p hq)
    simp [setBatch, if_neg hp, ih hrest]

theorem setBatch_of_none {l : List (String × Batch)} {k : String}
    (h : alookup k l = none) (v : Batch) :
    setBatch l k v = l ++ [(k, v)] := by
  induction l with
  | nil => simp [setBatch]
  | cons p rest ih =>
    by_cases hk : p.1 = k
    · simp [alookup, if_pos hk] at h
    · simp only [alookup, if_neg hk] at h
      simp [setBatch, if_neg hk, ih h]

theorem sizeBytesAfter_const (b : Batch) (e : Entry) :
    b.sizeBytesAfter e = b.sizeBytes + 2 := by
  unfold Batch.sizeBytesAfter Batch.sizeBytes
  rw [Value.goLen_eq_two]

theorem newBatch_single (now : Nat) (e : Entry) :
    (newBatch now [e]).streams = [(serializeLabels e.labels, ⟨e.labels, [e.value]⟩)] ∧
    (newBatch now [e]).bytes = e.value.line.utf8ByteSize ∧
    (newBatch now [e]).createdAt = now := by
  simp [newBatch, emptyBatch, Batch.add, alookup]

theorem Store.getRef_append {st : Store} {r : Nat} (tail : Store) (hr : r < st.length) :
    Store.getRef (st ++ tail) r = Store.getRef st r := by
  simp only [Store.getRef]
  exact List.getD_append _ _ _ _ hr

theorem Store.getRef_setRef_ne {st : Store} {i r : Nat} (x : LabelSet) (h : r ≠ i) :
    Store.getRef (Store.setRef st i x) r = Store.getRef st r := by
  simp only [Store.setRef, Store.getRef, List.getD_eq_getElem?_getD]
  rw [List.getElem?_set_ne (Ne.symm h)]

/-! ### Claim theorems -/

/-- C1: when an entry arrives for a tenant with a pending batch and the
projected size exceeds the configured maximum batch size, the dispatcher
sends the existing batch unchanged and replaces it by a fresh batch seeded
with exactly the triggering entry — the entry is not added to the old batch,
not split, and not dropped. -/
theorem C1_overflow_flush (cfg : Config) (st : LoopState) (now : Nat) (e : Entry) (b : Batch)
    (hb : alookup e.tenantID st.batches = some b)
    (hover : b.sizeBytesAfter e > cfg.batchSize) :
    (dispatchEntry cfg st now e).sent = st.sent ++ [(e.tenantID, b)] ∧
    alookup e.tenantID (dispatchEntry cfg st now e).batches = some (newBatch now [e]) ∧
    (newBatch now [e]).streams = [(serializeLabels e.labels, ⟨e.labels, [e.value]⟩)] ∧
    (newBatch now [e]).bytes = e.value.line.utf8ByteSize := by
  unfold dispatchEntry
  rw [hb]
  simp only [if_pos hover]
  exact ⟨by trivial, alookup_setBatch_self _ _ _, (newBatch_single now e).1,
    (newBatch_single now e).2.1⟩

theorem C1_overflow_flush_witness :
    (alookup exEntry2.tenantID exState.batches = some exBatch ∧
     exBatch.sizeBytesAfter exEntry2 > exCfg.batchSize) ∧
    ((dispatchEntry exCfg exState 7 exEntry2).sent = exState.sent ++ [(exEntry2.tenantID, exBatch)] ∧
     alookup exEntry2.tenantID (dispatchEntry exCfg exState 7 exEntry2).batches =
       some (newBatch 7 [exEntry2]) ∧
     (newBatch 7 [exEntry2]).streams =
       [(serializeLabels exEntry2.labels, ⟨exEntry2.labels, [exEntry2.value]⟩)] ∧
     (newBatch 7 [exEntry2]).bytes = exEntry2.value.line.utf8ByteSize) :=
  ⟨⟨by decide, by decide⟩,
   C1_overflow_flush exCfg exState 7 exEntry2 exBatch (by decide) (by decide)⟩

/-- C2 counterexample: `sizeBytesAfter` does not add the line-text length of
the candidate entry — for a 3-byte line it adds 2 (the Go array length of the
`[2]string` value), so the claimed equation fails. -/
theorem C2_counterexample :
    (emptyBatch 0).sizeBytesAfter ⟨"", [], Value.mk2 "0" "abc"⟩ ≠
      (emptyBatch 0).sizeBytes + (Value.mk2 "0" "abc").line.utf8ByteSize := by
  decide

/-- C2 amended: for every batch and entry, `sizeBytesAfter` returns
`sizeBytes` plus the constant 2 — the Go `len` of the fixed two-element value
array — regardless of the line text. -/
theorem C2_amended_size_after (b : Batch) (e : Entry) :
    b.sizeBytesAfter e = b.sizeBytes + 2 :=
  sizeBytesAfter_const b e

/-- C10: `sizeBytesAfter` adds the constant 2 (the length of the fixed
two-element value array) independent of the line content, and hence the
dispatcher flush decision compares the current batch size plus 2 with the
configured maximum, independent of the incoming entry. -/
theorem C10_projection_constant :
    (∀ (b : Batch) (e : Entry), b.sizeBytesAfter e = b.sizeBytes + 2) ∧
    (∀ (cfg : Config) (st : LoopState) (now : Nat) (e : Entry) (b : Batch),
      alookup e.tenantID st.batches = some b →
      ((dispatchEntry cfg st now e).sent = st.sent ++ [(e.tenantID, b)] ↔
        b.sizeBytes + 2 > cfg.batchSize)) := by
  refine ⟨sizeBytesAfter_const, ?_⟩
  intro cfg st now e b hb
  unfold dispatchEntry
  rw [hb]
  by_cases hov : b.sizeBytesAfter e > cfg.batchSize
  · have hov2 : b.sizeBytes + 2 > cfg.batchSize := by
      rw [← sizeBytesAfter_const b e]; exact hov
    simp [if_pos hov, hov2]
  · have hov2 : ¬ b.sizeBytes + 2 > cfg.batchSize := by
      rw [← sizeBytesAfter_const b e]; exact hov
    simp [if_neg hov, hov2]

theorem C10_projection_constant_witness :
    (dispatchEntry exCfg exState 7 exEntry2).sent =
        exState.sent ++ [(exEntry2.tenantID, exBatch)] ↔
      exBatch.sizeBytes + 2 > exCfg.batchSize :=
  C10_projection_constant.2 exCfg exState 7 exEntry2 exBatch (by decide)

/-- C3 counterexample: `send` reports connection-level failures as status
`-1`, and on a first status of `-1` the retry loop makes a second attempt
(2 attempts in total), although `-1` is neither `0` nor `429` nor in the 5xx
class — so "any other returned status terminates the loop" fails at `-1`. -/
theorem C3_counterexample :
    (sendBatch 3 (fun i => if i = 0 then -1 else 200)).1 = 2 ∧
    sendBreak (-1) = false ∧
    ¬((-1 : Int) = 0 ∨ (-1 : Int) = 429 ∨ Int.tdiv (-1) 100 = 5) := by
  decide

/-- C3 amended: a send attempt is retryable exactly when the returned status
is nonpositive (connection-level failures return `-1`), `429`, or in the 5xx
class; a first status of 400 gives exactly one attempt ending with an error,
and a first 2xx status gives exactly one attempt ending without error. -/
theorem C3_retry_classification :
    (∀ s : Int, sendBreak s = false ↔ (s ≤ 0 ∨ s = 429 ∨ Int.tdiv s 100 = 5)) ∧
    (∀ (mr : Nat) (statuses : Nat → Int), 0 < mr → statuses 0 = 400 →
        sendBatch mr statuses = (1, 400, true)) ∧
    (∀ (mr : Nat) (statuses : Nat → Int) (s : Int), 0 < mr → statuses 0 = s →
        200 ≤ s → s < 300 → sendBatch mr statuses = (1, s, false)) := by
  refine ⟨?_, ?_, ?_⟩
  · intro s
    simp only [sendBreak, Bool.and_eq_false_iff, decide_eq_false_iff_not, not_lt,
      bne_eq_false_iff_eq]
    tauto
  · intro mr statuses hmr h0
    cases mr with
    | zero => omega
    | succ n =>
      have hb : sendBreak 400 = true := by decide
      have he : sendErr 400 = true := by decide
      simp [sendBatch, sendBatchLoop, h0, hb, he]
  · intro mr statuses s hmr h0 h200 h300
    have ht : Int.tdiv s 100 = 2 := by
      rw [Int.tdiv_eq_ediv (by omega) (by omega)]
      omega
    have hbreak : sendBreak s = true := by
      simp only [sendBreak, ht, Bool.and_eq_true, decide_eq_true_eq, bne_iff_ne]
      refine ⟨⟨by omega, by omega⟩, by omega⟩
    have herr : sendErr s = false := by
      simp [sendErr, ht]
      omega
    cases mr with
    | zero => omega
    | succ n =>
      simp [sendBatch, sendBatchLoop, h0, hbreak, herr]

theorem C3_retry_classification_witness :
    sendBatch 1 (fun _ => 400) = (1, 400, true) ∧
    sendBatch 1 (fun _ => 204) = (1, 204, false) :=
  ⟨C3_retry_classification.2.1 1 (fun _ => 400) (by decide) rfl,
   C3_retry_classification.2.2 1 (fun _ => 204) 204 (by decide) rfl (by decide) (by decide)⟩

/-- C5: the periodic age check runs with period `max(10ms, batchWait/10)`; a
tick at instant `now` flushes (and removes from the pending map) exactly the
batches whose age has reached `batchWait`; a batch is never flushed before
its age reaches `batchWait`, and some tick falls within one check period
after its age reaches `batchWait` and flushes it then. -/
theorem C5_age_check (W : Nat) (hW : 0 < W) :
    maxWaitCheckFrequency W = max minWaitCheckFrequency (W / 10) ∧
    0 < maxWaitCheckFrequency W ∧
    (∀ (now : Nat) (st : LoopState),
      (∀ p, p ∈ (tickFlush W now st).batches ↔ p ∈ st.batches ∧ p.2.age now < W) ∧
      (tickFlush W now st).sent =
        st.sent ++ st.batches.filter (fun p => ! decide (p.2.age now < W))) ∧
    (∀ (now : Nat) (b : Batch), ¬ b.age now < W → b.createdAt + W ≤ now) ∧
    (∀ b : Batch, ∃ k : Nat,
      b.createdAt + W ≤ k * maxWaitCheckFrequency W ∧
      k * maxWaitCheckFrequency W < b.createdAt + W + maxWaitCheckFrequency W ∧
      ¬ b.age (k * maxWaitCheckFrequency W) < W) := by
  have hp : 0 < maxWaitCheckFrequency W := by
    simp only [maxWaitCheckFrequency, minWaitCheckFrequency]
    split_ifs <;> omega
  refine ⟨?_, hp, ?_, ?_, ?_⟩
  · simp only [maxWaitCheckFrequency, minWaitCheckFrequency, Nat.max_def]
    split_ifs <;> omega
  · intro now st
    constructor
    · intro p
      simp [tickFlush, List.mem_filter]
    · rfl
  · intro now b h
    simp only [Batch.age] at h
    omega
  · intro b
    obtain ⟨q, r, hqr, hrp⟩ :
        ∃ q r, q * maxWaitCheckFrequency W + r = b.createdAt + W ∧
          r < maxWaitCheckFrequency W :=
      ⟨(b.createdAt + W) / maxWaitCheckFrequency W,
       (b.createdAt + W) % maxWaitCheckFrequency W,
       by rw [Nat.mul_comm]; exact Nat.div_add_mod _ _,
       Nat.mod_lt _ hp⟩
    by_cases hr : r = 0
    · refine ⟨q, by omega, by omega, ?_⟩
      simp only [Batch.age]
      omega
    · have hM : (q + 1) * maxWaitCheckFrequency W =
          q * maxWaitCheckFrequency W + maxWaitCheckFrequency W := by ring
      refine ⟨q + 1, ?_, ?_, ?_⟩
      · rw [hM]; omega
      · rw [hM]; omega
      · simp only [Batch.age]
        rw [hM]
        omega

theorem C5_age_check_witness :
    (0 : Nat) < 1000000000 ∧
    (maxWaitCheckFrequency 1000000000 = max minWaitCheckFrequency (1000000000 / 10) ∧
     0 < maxWaitCheckFrequency 1000000000 ∧
     (∀ (now : Nat) (st : LoopState),
       (∀ p, p ∈ (tickFlush 1000000000 now st).batches ↔
          p ∈ st.batches ∧ p.2.age now < 1000000000) ∧
       (tickFlush 1000000000 now st).sent =
         st.sent ++ st.batches.filter (fun p => ! decide (p.2.age now < 1000000000))) ∧
     (∀ (now : Nat) (b : Batch), ¬ b.age now < 1000000000 →
        b.createdAt + 1000000000 ≤ now) ∧
     (∀ b : Batch, ∃ k : Nat,
       b.createdAt + 1000000000 ≤ k * maxWaitCheckFrequency 1000000000 ∧
       k * maxWaitCheckFrequency 1000000000 <
         b.createdAt + 1000000000 + maxWaitCheckFrequency 1000000000 ∧
       ¬ b.age (k * maxWaitCheckFrequency 1000000000) < 1000000000)) :=
  ⟨by norm_num, C5_age_check 1000000000 (by norm_num)⟩

/-- C9: for a caller-provided label set containing the reserved tenant key,
`Handle` clones the map before deleting the key, so the caller-owned map
object (reference `r` into the store) holds the same bindings after the call
as before. -/
theorem C9_no_caller_mutation (cfg : Config) (ts : Int) (s : String)
    (st : Store) (r : Nat) (hr : r < st.length)
    (hres : (alookup ReservedLabelTenantID (Store.getRef st r)).isSome = true) :
    Store.getRef (handleStored cfg ts s st r).1 r = Store.getRef st r := by
  unfold handleStored
  dsimp only
  split_ifs with h1 h2
  · dsimp only [Store.alloc]
    rw [Store.getRef_setRef_ne _ (by simp; omega)]
    rw [Store.getRef_append _ (by simp; omega)]
    exact Store.getRef_append _ hr
  · exact Store.getRef_append _ hr
  · dsimp only [Store.alloc]
    rw [Store.getRef_setRef_ne _ (by omega)]
    exact Store.getRef_append _ hr

theorem alookup_eraseKey_self (ls : LabelSet) (k : String) :
    alookup k (LabelSet.eraseKey ls k) = none := by
  induction ls with
  | nil => rfl
  | cons p rest ih =>
    by_cases hk : p.1 = k
    · simpa [LabelSet.eraseKey, List.filter_cons, hk] using ih
    · simpa [LabelSet.eraseKey, List.filter_cons, hk, alookup] using ih

theorem alookup_sendHeaders (tid : String) :
    alookup "X-Scope-OrgID" (sendHeaders tid) =
      if tid ≠ "" then some tid else none := by
  by_cases h : tid = ""
  · simp only [sendHeaders, h]
    rfl
  · simp only [sendHeaders, if_neg (fun hh => h (by simpa using hh)), if_pos h]
    rfl

theorem handleEntry_eq (cfg : Config) (ts : Int) (ls : LabelSet) (s : String) :
    handleEntry cfg ts ls s =
      ⟨getTenantID cfg (mergedLabels cfg ls),
       if (alookup ReservedLabelTenantID (mergedLabels cfg ls)).isSome
       then LabelSet.eraseKey (mergedLabels cfg ls) ReservedLabelTenantID
       else mergedLabels cfg ls,
       Value.mk2 (toString ts) s⟩ := by
  unfold handleEntry handleStored mergedLabels
  by_cases h1 : 0 < cfg.externalLabels.length
  · simp only [if_pos h1]
    by_cases h2 :
        (alookup ReservedLabelTenantID
          (Store.getRef (Store.alloc [ls] (LabelSet.merge cfg.externalLabels
            (Store.getRef [ls] 0))).1
            (Store.alloc [ls] (LabelSet.merge cfg.externalLabels (Store.getRef [ls] 0))).2)).isSome
    · simp [h2, Store.alloc, Store.getRef, Store.setRef, List.getD] at *
      simp [h2]
    · simp [Store.alloc, Store.getRef, Store.setRef, List.getD] at *
      simp [h2]
  · simp only [if_neg h1]
    by_cases h2 : (alookup ReservedLabelTenantID (Store.getRef [ls] 0)).isSome
    · simp [Store.alloc, Store.getRef, Store.setRef, List.getD] at *
      simp [h2]
    · simp [Store.alloc, Store.getRef, Store.setRef, List.getD] at *
      simp [h2]

theorem C9_no_caller_mutation_witness :
    Store.getRef
      (handleStored exCfg 5 "line" [[(ReservedLabelTenantID, "t1"), ("app", "web")]] 0).1 0 =
      Store.getRef [[(ReservedLabelTenantID, "t1"), ("app", "web")]] 0 :=
  C9_no_caller_mutation exCfg 5 "line" [[(ReservedLabelTenantID, "t1"), ("app", "web")]] 0
    (by decide) (by decide)

/-- C6 counterexample: with the reserved label present but bound to the empty
string, `Handle` derives the empty tenant ID and `send` does not set the
`X-Scope-OrgID` header at all — so "the outbound request carries
`X-Scope-OrgID` with its value" fails for a present reserved label. -/
theorem C6_counterexample :
    (alookup ReservedLabelTenantID
      ([(ReservedLabelTenantID, "")] : LabelSet)).isSome = true ∧
    (handleEntry ⟨0, 0, "static", [], 0⟩ 0 [(ReservedLabelTenantID, "")] "line").tenantID = "" ∧
    alookup "X-Scope-OrgID"
      (sendHeaders
        (handleEntry ⟨0, 0, "static", [], 0⟩ 0 [(ReservedLabelTenantID, "")] "line").tenantID) =
      none := by
  decide

/-- C6 amended: `Handle` derives the tenant ID from the merged label set with
precedence reserved label value (if the key is present, even when empty),
else the configured tenant ID, else the empty string; the reserved label
never appears in the enqueued (transmitted) stream labels; and the outbound
request carries `X-Scope-OrgID` with the derived value exactly when that
value is non-empty (an empty derived tenant ID suppresses the header). -/
theorem C6_tenant_derivation (cfg : Config) (ts : Int) (ls : LabelSet) (s : String) :
    (∀ v, alookup ReservedLabelTenantID (mergedLabels cfg ls) = some v →
        (handleEntry cfg ts ls s).tenantID = v) ∧
    (alookup ReservedLabelTenantID (mergedLabels cfg ls) = none → cfg.tenantID ≠ "" →
        (handleEntry cfg ts ls s).tenantID = cfg.tenantID) ∧
    (alookup ReservedLabelTenantID (mergedLabels cfg ls) = none → cfg.tenantID = "" →
        (handleEntry cfg ts ls s).tenantID = "") ∧
    alookup ReservedLabelTenantID (handleEntry cfg ts ls s).labels = none ∧
    ((handleEntry cfg ts ls s).tenantID ≠ "" →
        alookup "X-Scope-OrgID" (sendHeaders (handleEntry cfg ts ls s).tenantID) =
          some (handleEntry cfg ts ls s).tenantID) ∧
    ((handleEntry cfg ts ls s).tenantID = "" →
        alookup "X-Scope-OrgID" (sendHeaders (handleEntry cfg ts ls s).tenantID) = none) := by
  rw [handleEntry_eq]
  refine ⟨?_, ?_, ?_, ?_, ?_, ?_⟩
  · intro v hv
    simp [getTenantID, hv]
  · intro hnone hcfg
    simp [getTenantID, hnone, if_pos hcfg]
  · intro hnone hcfg
    simp [getTenantID, hnone, hcfg]
  · by_cases h : (alookup ReservedLabelTenantID (mergedLabels cfg ls)).isSome
    · simp only [if_pos h]
      exact alookup_eraseKey_self _ _
    · simp only [if_neg h]
      exact Option.not_isSome_iff_eq_none.mp h
  · intro h
    rw [alookup_sendHeaders, if_pos h]
  · intro h
    have h2 : getTenantID cfg (mergedLabels cfg ls) = "" := h
    rw [alookup_sendHeaders, if_neg (by simp [h2])]

theorem C6_tenant_derivation_witness :
    (handleEntry ⟨0, 0, "", [("env", "prod")], 0⟩ 5
        [(ReservedLabelTenantID, "t1"), ("app", "web")] "x").tenantID = "t1" ∧
    alookup ReservedLabelTenantID
      (handleEntry ⟨0, 0, "", [("env", "prod")], 0⟩ 5
        [(ReservedLabelTenantID, "t1"), ("app", "web")] "x").labels = none ∧
    alookup "X-Scope-OrgID"
      (sendHeaders (handleEntry ⟨0, 0, "", [("env", "prod")], 0⟩ 5
        [(ReservedLabelTenantID, "t1"), ("app", "web")] "x").tenantID) =
      some (handleEntry ⟨0, 0, "", [("env", "prod")], 0⟩ 5
        [(ReservedLabelTenantID, "t1"), ("app", "web")] "x").tenantID := by
  have h := C6_tenant_derivation ⟨0, 0, "", [("env", "prod")], 0⟩ 5
    [(ReservedLabelTenantID, "t1"), ("app", "web")] "x"
  exact ⟨h.1 "t1" (by decide), h.2.2.2.1, h.2.2.2.2.1 (by decide)⟩

theorem mem_batchesValues {v : Value} {bs : List (String × Batch)} :
    v ∈ (bs.map (fun p => p.2.valuesList)).flatten ↔ ∃ p ∈ bs, v ∈ p.2.valuesList := by
  constructor
  · intro h
    obtain ⟨l, hl, hv⟩ := List.mem_flatten.mp h
    obtain ⟨p, hp, rfl⟩ := List.mem_map.mp hl
    exact ⟨p, hp, hv⟩
  · rintro ⟨p, hp, hv⟩
    exact List.mem_flatten.mpr ⟨_, List.mem_map.mpr ⟨p, hp, rfl⟩, hv⟩

theorem mem_valuesList {v : Value} {b : Batch} :
    v ∈ b.valuesList ↔ ∃ p ∈ b.streams, v ∈ p.2.values := by
  constructor
  · intro h
    obtain ⟨l, hl, hv⟩ := List.mem_flatten.mp h
    obtain ⟨p, hp, rfl⟩ := List.mem_map.mp hl
    exact ⟨p, hp, hv⟩
  · rintro ⟨p, hp, hv⟩
    exact List.mem_flatten.mpr ⟨_, List.mem_map.mpr ⟨p, hp, rfl⟩, hv⟩

theorem mem_valuesList_add {b : Batch} {v : Value} (e : Entry) (h : v ∈ b.valuesList) :
    v ∈ (b.add e).valuesList := by
  rcases mem_valuesList.mp h with ⟨p, hp, hv⟩
  cases hk : alookup (serializeLabels e.labels) b.streams with
  | none =>
    refine mem_valuesList.mpr ⟨p, ?_, hv⟩
    simp only [Batch.add, hk]
    exact List.mem_append_left _ hp
  | some s =>
    refine mem_valuesList.mpr ?_
    by_cases hpk : p.1 = serializeLabels e.labels
    · refine ⟨(p.1, ⟨p.2.labels, p.2.values ++ [e.value]⟩), ?_, List.mem_append_left _ hv⟩
      simp only [Batch.add, hk]
      exact List.mem_map.mpr ⟨p, hp, by rw [if_pos hpk]⟩
    · refine ⟨p, ?_, hv⟩
      simp only [Batch.add, hk]
      exact List.mem_map.mpr ⟨p, hp, by rw [if_neg hpk]⟩

theorem allValues_step_mono (cfg : Config) (st : LoopState) (ev : Event) :
    ∀ v ∈ allValues st, v ∈ allValues (step cfg st ev) := by
  intro v hv
  cases ev with
  | quit => exact hv
  | tick now =>
    simp only [allValues, sentValues, pendingValues, List.mem_append] at hv ⊢
    rcases hv with hv | hv
    · simp only [step, tickFlush, List.map_append, List.flatten_append]
      left
      exact List.mem_append_left _ hv
    · obtain ⟨p, hp, hpv⟩ := mem_batchesValues.mp hv
      by_cases hage : p.2.age now < cfg.batchWait
      · right
        simp only [step, tickFlush]
        exact mem_batchesValues.mpr ⟨p, List.mem_filter.mpr ⟨hp, by simp [hage]⟩, hpv⟩
      · left
        simp only [step, tickFlush, List.map_append, List.flatten_append, List.mem_append]
        right
        exact mem_batchesValues.mpr ⟨p, List.mem_filter.mpr ⟨hp, by simp [hage]⟩, hpv⟩
  | entry now e =>
    simp only [allValues, sentValues, pendingValues, List.mem_append] at hv ⊢
    simp only [step, dispatchEntry]
    cases hk : alookup e.tenantID st.batches with
    | none =>
      simp only [hk]
      rw [setBatch_of_none hk]
      rcases hv with hv | hv
      · exact Or.inl hv
      · right
        simp only [List.map_append, List.flatten_append]
        exact List.mem_append_left _ hv
    | some b =>
      simp only [hk]
      obtain ⟨l1, l2, hsplit, hl1⟩ := alookup_some_split hk
      by_cases hov : b.sizeBytesAfter e > cfg.batchSize
      · simp only [if_pos hov]
        rcases hv with hv | hv
        · left
          simp only [List.map_append, List.flatten_append]
          exact List.mem_append_left _ hv
        · obtain ⟨p, hp, hpv⟩ := mem_batchesValues.mp hv
          rw [hsplit] at hp
          rcases List.mem_append.mp hp with hp1 | hp2
          · right
            rw [hsplit, setBatch_of_split hl1]
            exact mem_batchesValues.mpr ⟨p, List.mem_append_left _ hp1, hpv⟩
          · rcases List.mem_cons.mp hp2 with hpe | hp3
            · left
              simp only [List.map_append, List.flatten_append, List.mem_append]
              right
              subst hpe
              simp [Batch.valuesList] at hpv ⊢
              exact hpv
            · right
              rw [hsplit, setBatch_of_split hl1]
              exact mem_batchesValues.mpr
                ⟨p, List.mem_append_right _ (List.mem_cons_of_mem _ hp3), hpv⟩
      · simp only [if_neg hov]
        rcases hv with hv | hv
        · exact Or.inl hv
        · obtain ⟨p, hp, hpv⟩ := mem_batchesValues.mp hv
          rw [hsplit] at hp
          right
          rw [hsplit, setBatch_of_split hl1]
          rcases List.mem_append.mp hp with hp1 | hp2
          · exact mem_batchesValues.mpr ⟨p, List.mem_append_left _ hp1, hpv⟩
          · rcases List.mem_cons.mp hp2 with hpe | hp3
            · refine mem_batchesValues.mpr ⟨(e.tenantID, b.add e),
                List.mem_append_right _ (List.mem_cons_self _ _), ?_⟩
              have : v ∈ b.valuesList := by
                have hb : p.2 = b := by rw [hpe]
                exact hb ▸ hpv
              exact mem_valuesList_add e this
            · exact mem_batchesValues.mpr
                ⟨p, List.mem_append_right _ (List.mem_cons_of_mem _ hp3), hpv⟩

theorem runLoop_append_quit (cfg : Config) (st : LoopState) (pre post : List Event)
    (h : Event.quit ∉ pre) :
    runLoop cfg st (pre ++ Event.quit :: post) = drain (List.foldl (step cfg) st pre) := by
  induction pre generalizing st with
  | nil => rfl
  | cons ev rest ih =>
    have hrest : Event.quit ∉ rest := fun hh => h (List.mem_cons_of_mem _ hh)
    cases ev with
    | quit => exact absurd (List.mem_cons_self _ _) h
    | entry now e => exact ih (step cfg st (Event.entry now e)) hrest
    | tick now => exact ih (step cfg st (Event.tick now)) hrest

/-- C7: the dispatcher drains on shutdown — no step of the loop ever loses an
accepted value, and a schedule that reaches the quit signal ends with an
empty pending map and every value accepted up to the quit appearing in some
delivery attempt; `Stop` (a `sync.Once`-guarded close) is idempotent. -/
theorem C7_shutdown_drain (cfg : Config) :
    (∀ (st : LoopState) (ev : Event) (v : Value),
        v ∈ allValues st → v ∈ allValues (step cfg st ev)) ∧
    (∀ (st : LoopState) (pre post : List Event), Event.quit ∉ pre →
        (runLoop cfg st (pre ++ Event.quit :: post)).batches = [] ∧
        (∀ v : Value, v ∈ allValues (List.foldl (step cfg) st pre) →
            v ∈ sentValues (runLoop cfg st (pre ++ Event.quit :: post)))) ∧
    (∀ c : StopState, clientStop (clientStop c) = clientStop c) := by
  refine ⟨fun st ev v h => allValues_step_mono cfg st ev v h, ?_, ?_⟩
  · intro st pre post hpre
    rw [runLoop_append_quit cfg st pre post hpre]
    refine ⟨rfl, ?_⟩
    intro v hv
    simp only [allValues, sentValues, pendingValues, List.mem_append] at hv
    simp only [drain, sentValues, List.map_append, List.flatten_append, List.mem_append]
    exact hv
  · intro c
    by_cases h : c.onceDone <;> simp [clientStop, h]

theorem newBatch_append_entry (now : Nat) (l : List Entry) (e : Entry) :
    newBatch now (l ++ [e]) = (newBatch now l).add e := by
  simp [newBatch, List.foldl_append]

theorem alookup_addvalue_self (l : List (List (String × String) × Stream))
    (k : List (String × String)) (v : Value) :
    alookup k (l.map (fun p =>
        if p.1 = k then (p.1, ⟨p.2.labels, p.2.values ++ [v]⟩) else p)) =
      (alookup k l).map (fun s => ⟨s.labels, s.values ++ [v]⟩) := by
  induction l with
  | nil => simp [alookup]
  | cons p rest ih =>
    by_cases hk : p.1 = k
    · simp [alookup, if_pos hk]
    · simpa [alookup, if_neg hk] using ih

theorem alookup_addvalue_ne (l : List (List (String × String) × Stream))
    (k0 k : List (String × String)) (v : Value) (h : k ≠ k0) :
    alookup k (l.map (fun p =>
        if p.1 = k0 then (p.1, ⟨p.2.labels, p.2.values ++ [v]⟩) else p)) =
      alookup k l := by
  induction l with
  | nil => simp [alookup]
  | cons p rest ih =>
    by_cases hk0 : p.1 = k0
    · have hk : ¬ p.1 = k := fun hh => h (hh ▸ hk0 ▸ rfl)
      have hk0k : ¬ k0 = k := Ne.symm h
      simpa [alookup, if_pos hk0, if_neg hk, hk0, if_neg hk0k] using ih
    · by_cases hk : p.1 = k
      · simp [alookup, if_neg hk0, if_pos hk]
      · simpa [alookup, if_neg hk0, if_neg hk] using ih

theorem addvalue_keys (l : List (List (String × String) × Stream))
    (k : List (String × String)) (v : Value) :
    (l.map (fun p =>
        if p.1 = k then (p.1, ⟨p.2.labels, p.2.values ++ [v]⟩) else p)).map Prod.fst =
      l.map Prod.fst := by
  induction l with
  | nil => simp
  | cons p rest ih =>
    by_cases hk : p.1 = k
    · simpa [if_pos hk] using ih
    · simpa [if_neg hk] using ih

theorem batch_inv (now : Nat) (l : List Entry) :
    ((newBatch now l).streams.map Prod.fst).Nodup ∧
    (newBatch now l).bytes = sumLineBytes l ∧
    (newBatch now l).createdAt = now ∧
    (∀ key, alookup key (newBatch now l).streams = expectedStream l key) := by
  induction l using List.reverseRecOn with
  | nil =>
    refine ⟨by simp [newBatch, emptyBatch], by simp [newBatch, emptyBatch, sumLineBytes],
      rfl, ?_⟩
    intro key
    simp [newBatch, emptyBatch, alookup, expectedStream]
  | append_singleton l e ih =>
    obtain ⟨hnodup, hbytes, hcreated, hchar⟩ := ih
    rw [newBatch_append_entry]
    cases hk : alookup (serializeLabels e.labels) (newBatch now l).streams with
    | some s =>
      have hexp : expectedStream l (serializeLabels e.labels) = some s :=
        (hchar (serializeLabels e.labels)).symm.trans hk
      obtain ⟨f, fs, hfilter, hs⟩ :
          ∃ f fs, l.filter (fun e2 => serializeLabels e2.labels = serializeLabels e.labels) =
              f :: fs ∧ s = ⟨f.labels, (f :: fs).map Entry.value⟩ := by
        unfold expectedStream at hexp
        cases hfl : l.filter (fun e2 => serializeLabels e2.labels = serializeLabels e.labels) with
        | nil => rw [hfl] at hexp; simp at hexp
        | cons f fs =>
          rw [hfl] at hexp
          exact ⟨f, fs, rfl, (Option.some.inj hexp).symm⟩
      refine ⟨?_, ?_, ?_, ?_⟩
      · simp only [Batch.add, hk]
        rw [addvalue_keys]
        exact hnodup
      · simp only [Batch.add, hk]
        simp [hbytes, sumLineBytes]
      · simp only [Batch.add, hk]
        exact hcreated
      · intro key
        by_cases hkey : key = serializeLabels e.labels
        · subst hkey
          simp only [Batch.add, hk]
          rw [alookup_addvalue_self, hk]
          unfold expectedStream
          rw [List.filter_append, hfilter]
          simp [hs, List.map_append]
        · simp only [Batch.add, hk]
          rw [alookup_addvalue_ne _ _ _ _ hkey, hchar key]
          unfold expectedStream
          rw [List.filter_append]
          have hne : ¬ serializeLabels e.labels = key := fun hh => hkey (Eq.symm hh)
          have hfe : List.filter (fun e2 => decide (serializeLabels e2.labels = key)) [e] = [] := by
            simp [hne]
          rw [hfe, List.append_nil]
    | none =>
      have hexp : expectedStream l (serializeLabels e.labels) = none :=
        (hchar (serializeLabels e.labels)).symm.trans hk
      have hfilter :
          l.filter (fun e2 => serializeLabels e2.labels = serializeLabels e.labels) = [] := by
        unfold expectedStream at hexp
        cases hfl : l.filter (fun e2 => serializeLabels e2.labels = serializeLabels e.labels) with
        | nil => rfl
        | cons f fs => rw [hfl] at hexp; simp at hexp
      refine ⟨?_, ?_, ?_, ?_⟩
      · simp only [Batch.add, hk]
        rw [List.map_append]
        have hnot : serializeLabels e.labels ∉ (newBatch now l).streams.map Prod.fst := by
          intro hmem
          obtain ⟨p, hp, hpk⟩ := List.mem_map.mp hmem
          exact alookup_none_forall hk p hp hpk
        simp [List.nodup_append, hnodup, hnot]
      · simp only [Batch.add, hk]
        simp [hbytes, sumLineBytes]
      · simp only [Batch.add, hk]
        exact hcreated
      · intro key
        by_cases hkey : key = serializeLabels e.labels
        · subst hkey
          simp only [Batch.add, hk]
          rw [alookup_append_of_none _ hk]
          unfold expectedStream
          rw [List.filter_append, hfilter]
          simp [alookup]
        · simp only [Batch.add, hk]
          rw [alookup_append_singleton_ne _ _ hkey, hchar key]
          unfold expectedStream
          rw [List.filter_append]
          have hne : ¬ serializeLabels e.labels = key := fun hh => hkey (Eq.symm hh)
          have hfe : List.filter (fun e2 => decide (serializeLabels e2.labels = key)) [e] = [] := by
            simp [hne]
          rw [hfe, List.append_nil]

theorem alookup_of_mem_nodup {κ β : Type} [DecidableEq κ] {l : List (κ × β)}
    (hnodup : (l.map Prod.fst).Nodup) {p : κ × β} (hp : p ∈ l) :
    alookup p.1 l = some p.2 := by
  induction l with
  | nil => simp at hp
  | cons q rest ih =>
    rcases List.mem_cons.mp hp with hq | hq
    · subst hq
      simp [alookup]
    · have hne : ¬ q.1 = p.1 := by
        intro hh
        have : q.1 ∈ rest.map Prod.fst := hh ▸ List.mem_map.mpr ⟨p, hq, rfl⟩
        exact (List.nodup_cons.mp hnodup).1 this
      simp only [alookup, if_neg hne]
      exact ih (List.nodup_cons.mp hnodup).2 hq

theorem batch_labels (now : Nat) (l : List Entry) :
    ∀ p ∈ (newBatch now l).streams, serializeLabels p.2.labels = p.1 := by
  intro p hp
  have hlook := alookup_of_mem_nodup (batch_inv now l).1 hp
  rw [(batch_inv now l).2.2.2 p.1] at hlook
  unfold expectedStream at hlook
  cases hfl : l.filter (fun e2 => serializeLabels e2.labels = p.1) with
  | nil => rw [hfl] at hlook; simp at hlook
  | cons f fs =>
    rw [hfl] at hlook
    have hp2 : p.2 = ⟨f.labels, (f :: fs).map Entry.value⟩ := (Option.some.inj hlook).symm
    have hf : f ∈ l.filter (fun e2 => serializeLabels e2.labels = p.1) := by
      rw [hfl]; exact List.mem_cons_self _ _
    have := List.of_mem_filter hf
    rw [hp2]
    simpa using this

theorem map_addvalue_id {l : List (List (String × String) × Stream)}
    {k : List (String × String)} (v : Value) (h : ∀ q ∈ l, q.1 ≠ k) :
    l.map (fun p => if p.1 = k then (p.1, ⟨p.2.labels, p.2.values ++ [v]⟩) else p) = l := by
  induction l with
  | nil => rfl
  | cons p rest ih =>
    rw [List.map_cons, if_neg (h p (List.mem_cons_self _ _)),
      ih (fun q hq => h q (List.mem_cons_of_mem _ hq))]

theorem pairs_add_perm (b : Batch) (e : Entry)
    (hnodup : (b.streams.map Prod.fst).Nodup)
    (hlab : ∀ p ∈ b.streams, serializeLabels p.2.labels = p.1) :
    ((b.add e).streams.map (fun p => streamPairs p.2)).flatten.Perm
      ((b.streams.map (fun p => streamPairs p.2)).flatten ++
        [(serializeLabels e.labels, e.value)]) := by
  cases hk : alookup (serializeLabels e.labels) b.streams with
  | none =>
    simp only [Batch.add, hk, List.map_append, List.flatten_append]
    simp [streamPairs]
  | some s =>
    obtain ⟨l1, l2, hsplit, hl1⟩ := alookup_some_split hk
    have hkey0 : serializeLabels s.labels = serializeLabels e.labels := by
      have : ((serializeLabels e.labels), s) ∈ b.streams := by
        rw [hsplit]
        exact List.mem_append_right _ (List.mem_cons_self _ _)
      simpa using hlab _ this
    have hl2 : ∀ q ∈ l2, q.1 ≠ serializeLabels e.labels := by
      rw [hsplit] at hnodup
      simp only [List.map_append, List.map_cons] at hnodup
      have h2 := (List.nodup_cons.mp (List.Nodup.of_append_right hnodup)).1
      intro q hq hh
      exact h2 (hh ▸ List.mem_map.mpr ⟨q, hq, rfl⟩)
    have hupd : (b.add e).streams =
        l1 ++ ((serializeLabels e.labels), ⟨s.labels, s.values ++ [e.value]⟩) :: l2 := by
      simp only [Batch.add, hk]
      rw [hsplit, List.map_append, List.map_cons]
      rw [map_addvalue_id e.value hl1, map_addvalue_id e.value hl2]
      simp
    rw [hupd, hsplit]
    simp only [List.map_append, List.map_cons, List.flatten_append, List.flatten_cons]
    have hsp : streamPairs (⟨s.labels, s.values ++ [e.value]⟩ : Stream) =
        streamPairs s ++ [(serializeLabels e.labels, e.value)] := by
      simp [streamPairs, hkey0]
    rw [hsp]
    have hstep :
        ((streamPairs s ++ [(serializeLabels e.labels, e.value)]) ++
            (l2.map (fun p => streamPairs p.2)).flatten).Perm
          ((streamPairs s ++ (l2.map (fun p => streamPairs p.2)).flatten) ++
            [(serializeLabels e.labels, e.value)]) := by
      rw [List.append_assoc, List.append_assoc]
      exact List.Perm.append_left _ List.perm_append_comm
    refine (List.Perm.append_left _ hstep).trans ?_
    simp [List.append_assoc]

/-- C4: for every entry sequence appended to one batch, each distinct
serialized label set keys exactly one stream (no duplicate keys); the batch
size equals the sum of the line-text byte lengths of the appended entries;
and the stream under any key holds exactly the values of the entries with
that serialized label set in arrival order (with the labels of the first such
entry), so a matching entry is appended to the existing stream and only a
fresh label set creates a stream. -/
theorem C4_batch_invariant (now : Nat) (l : List Entry) :
    ((newBatch now l).streams.map Prod.fst).Nodup ∧
    (newBatch now l).sizeBytes = sumLineBytes l ∧
    (∀ key, alookup key (newBatch now l).streams = expectedStream l key) :=
  ⟨(batch_inv now l).1, (batch_inv now l).2.1, (batch_inv now l).2.2.2⟩

theorem batch_pairs (now : Nat) (l : List Entry) :
    ((newBatch now l).streams.map (fun p => streamPairs p.2)).flatten.Perm (entryPairs l) := by
  induction l using List.reverseRecOn with
  | nil => simp [newBatch, emptyBatch, entryPairs]
  | append_singleton l e ih =>
    rw [newBatch_append_entry]
    have hstep := pairs_add_perm (newBatch now l) e (batch_inv now l).1 (batch_labels now l)
    refine hstep.trans ?_
    rw [show entryPairs (l ++ [e]) =
        entryPairs l ++ [(serializeLabels e.labels, e.value)] from by
      simp [entryPairs]]
    exact ih.append_right _

theorem foldl_add_values (ss : List Stream) :
    ∀ init : Nat, ss.foldl (fun acc s => acc + s.values.length) init =
      init + (ss.map (fun s => s.values.length)).sum := by
  induction ss with
  | nil => intro init; simp
  | cons s rest ih =>
    intro init
    simp only [List.foldl_cons, List.map_cons, List.sum_cons]
    rw [ih]
    omega

theorem count_eq_pairs_length (b : Batch) :
    (b.createPushRequest).2 = ((b.streams.map (fun p => streamPairs p.2)).flatten).length := by
  unfold Batch.createPushRequest
  dsimp only
  rw [foldl_add_values]
  simp [List.length_flatten, streamPairs, Function.comp_def, List.map_map]

/-- C8: encoding a batch built from any entry sequence returns an entry count
equal to the number of appended (label set, value) pairs, and the encoded
payload holds exactly those pairs (as a permutation — Go map iteration order
is unspecified). -/
theorem C8_roundtrip_count (now : Nat) (l : List Entry) :
    ((newBatch now l).encodeJSON).2 = l.length ∧
    (requestPairs ((newBatch now l).encodeJSON).1).Perm (entryPairs l) := by
  have hp : (requestPairs ((newBatch now l).encodeJSON).1).Perm (entryPairs l) := by
    have := batch_pairs now l
    simpa [requestPairs, Batch.encodeJSON, Batch.createPushRequest, List.map_map,
      Function.comp_def] using this
  refine ⟨?_, hp⟩
  have hlen := hp.length_eq
  have hcount : ((newBatch now l).encodeJSON).2 =
      (requestPairs ((newBatch now l).encodeJSON).1).length := by
    rw [show ((newBatch now l).encodeJSON).1 = ((newBatch now l).createPushRequest).1 from rfl]
    rw [show ((newBatch now l).encodeJSON).2 = ((newBatch now l).createPushRequest).2 from rfl]
    rw [count_eq_pairs_length]
    simp [requestPairs, Batch.createPushRequest, List.map_map, Function.comp_def]
  rw [hcount, hlen]
  simp [entryPairs]

theorem C7_shutdown_drain_witness :
    (runLoop exCfg ⟨[], []⟩ [Event.entry 0 exEntry, Event.quit]).batches = [] ∧
    exEntry.value ∈ sentValues (runLoop exCfg ⟨[], []⟩ [Event.entry 0 exEntry, Event.quit]) := by
  have h := (C7_shutdown_drain exCfg).2.1 ⟨[], []⟩ [Event.entry 0 exEntry] [] (by decide)
  exact ⟨h.1, h.2 exEntry.value (by decide)⟩

end Loki
